import Mathlib

/-
Shallow embedding of src/ds-inhibit.py.

The daemon watches /dev for hidraw device nodes, filters them through an
eligibility check against sysfs, keeps an inotify watch per eligible
device, and on every open/close event correlates the device with the
process table to decide whether the steam process holds the device open,
writing the per-input inhibited attribute accordingly.

Modelling conventions:
- filesystem and process-table reads are fields of explicit environment
  structures (Sys for sysfs and device nodes, List ProcEntry for the
  process table snapshot);
- a read that raises FileNotFoundError in Python is modelled as an
  Option value that is none;
- Python exception propagation is modelled by Except results or by an
  abort flag that stops the surrounding loop;
- the inotify watch manager (library pyinotify, not part of src/) is
  modelled from the spec and from inotify semantics: watches are keyed
  by watch descriptor, and adding a watch for a path that is already
  watched updates the existing entry in place instead of adding a second
  one.
-/

namespace DsInhibit

/-- Python whitespace set used by str.rstrip with no arguments: space,
tab, newline, carriage return, vertical tab, form feed. -/
def pySpace (c : Char) : Bool :=
  c == ' ' || c == '\t' || c == '\n' || c == '\r' || c == '\x0b' || c == '\x0c'

/-- Python str.rstrip(): drop trailing whitespace characters. -/
def pyRstrip (s : String) : String :=
  String.mk ((s.data.reverse.dropWhile pySpace).reverse)

/-- Python str.isnumeric restricted to the ASCII digit names that occur
as directory entries under /proc: nonempty and all digits. -/
def pyIsNumeric (s : String) : Bool :=
  !s.data.isEmpty && s.data.all Char.isDigit

/-- The anchored regular expression MATCH from the source, matching
/dev/hidraw followed by one or more digits; returns the digit group
(the device identity, kept as a string exactly as match.group(1) is). -/
def matchHidraw (s : String) : Option String :=
  match s.data with
  | '/' :: 'd' :: 'e' :: 'v' :: '/' :: 'h' :: 'i' :: 'd' :: 'r' :: 'a' :: 'w' :: rest =>
    if !rest.isEmpty && rest.all Char.isDigit then some (String.mk rest) else none
  | _ => none

/-- Environment seen by the Inhibitor class.  Each field is the outcome
of one kind of filesystem access the Python code performs:
inputDevs id is the glob over /sys/class/hidraw/hidraw{id}/device/input,
hasMouse d tells whether the glob for mouse nodes under input dir d is
nonempty, driverLink id is the target of readlink on the driver symlink,
writable n is os.access(n, W_OK), and openW n tells whether opening node
n for writing succeeds (false models FileNotFoundError on a node that
vanished). -/
structure Sys where
  inputDevs : String → List String
  hasMouse : String → Bool
  driverLink : String → String
  writable : String → Bool
  openW : String → Bool

/-- Python expression driver.split(slash)[-1]: the substring after the
last slash (the whole string if there is no slash). -/
def lastComponent (s : String) : String :=
  String.mk ((s.data.reverse.takeWhile (fun c => !(c == '/'))).reverse)

namespace Inhibitor

/-- Inhibitor.get_nodes: the inhibited files of the input sub-nodes that
expose at least one mouse node. -/
def get_nodes (sys : Sys) (id : String) : List String :=
  ((sys.inputDevs id).filter sys.hasMouse).map (fun d => d ++ "/inhibited")

/-- Inhibitor.can_inhibit: driver symlink must end in sony or
playstation, the node list must be nonempty, and the loop returns false
as soon as one node is not writable (so every node must be writable). -/
def can_inhibit (sys : Sys) (id : String) : Bool :=
  let driver := lastComponent (sys.driverLink id)
  if !(driver == "sony" || driver == "playstation") then false
  else
    let nodes := get_nodes sys id
    if nodes = [] then false
    else nodes.all sys.writable

/-- The write loop shared by Inhibitor.inhibit and Inhibitor.uninhibit:
open each node for writing and write the value v.  The open is not
guarded by any exception handler in the source, so a node whose open
fails aborts the loop: the result is the list of writes performed
before the failure, paired with a flag telling whether the loop raised. -/
def writeNodes (sys : Sys) (v : String) : List String → List (String × String) × Bool
  | [] => ([], false)
  | n :: rest =>
    if sys.openW n then
      let r := writeNodes sys v rest
      ((n, v) :: r.1, r.2)
    else ([], true)

/-- Inhibitor.inhibit: write the string 1 newline to every node. -/
def inhibit (sys : Sys) (id : String) : List (String × String) × Bool :=
  writeNodes sys "1\n" (get_nodes sys id)

/-- Inhibitor.uninhibit: write the string 0 newline to every node. -/
def uninhibit (sys : Sys) (id : String) : List (String × String) × Bool :=
  writeNodes sys "0\n" (get_nodes sys id)

end Inhibitor

/-- One descriptor entry under /proc/pid/fd.  target is the result of
os.readlink on it; none models the FileNotFoundError the source catches
when the descriptor closed mid-scan. -/
structure FdEntry where
  fdName : String
  target : Option String
deriving DecidableEq

/-- One directory entry of /proc as observed by InhibitionServer._check.
pidName is the raw directory entry name; fdReadable is
os.access on the fd directory with R_OK; fds is the os.listdir of the fd
directory (none models the unguarded listdir raising because the process
vanished after the access check); comm is the content read from the comm
file when the second loop opens it (none models the unguarded open
raising because the process vanished). -/
structure ProcEntry where
  pidName : String
  fdReadable : Bool
  fds : Option (List FdEntry)
  comm : Option String
deriving DecidableEq

/-- The descriptor test inside the fd loop of _check: skip when readlink
raised, skip when the resolved path is empty or differs from the device
path, otherwise the descriptor counts. -/
def fdHit (hidraw : String) (fd : FdEntry) : Bool :=
  match fd.target with
  | none => false
  | some p => if p = "" then false else if p = hidraw then true else false

/-- First loop of _check: walk the /proc listing, skip non-numeric
entries and entries whose fd directory is not readable, and collect the
process once per matching descriptor.  The listdir on the fd directory
is not guarded in the source, so a vanished fd directory aborts the
whole scan with the exception, modelled as Except.error. -/
def openProcs (hidraw : String) : List ProcEntry → Except Unit (List ProcEntry)
  | [] => .ok []
  | e :: rest =>
    if !(pyIsNumeric e.pidName) then openProcs hidraw rest
    else if !e.fdReadable then openProcs hidraw rest
    else
      match e.fds with
      | none => .error ()
      | some fds =>
        match openProcs hidraw rest with
        | .error u => .error u
        | .ok tail => .ok ((fds.filter (fdHit hidraw)).map (fun _ => e) ++ tail)

/-- Second loop of _check: read the comm file of every collected
process.  The open is not guarded in the source, so a vanished process
aborts the scan; an empty read is skipped; the steam flag is set when a
comm equals steam after rstrip, and the loop always runs to the end. -/
def steamLoop : List ProcEntry → Except Unit Bool
  | [] => .ok false
  | e :: rest =>
    match e.comm with
    | none => .error ()
    | some c =>
      if c = "" then steamLoop rest
      else if pyRstrip c = "steam" then
        match steamLoop rest with
        | .error u => .error u
        | .ok _ => .ok true
      else steamLoop rest

/-- The decision part of InhibitionServer._check: none when the path
does not match the hidraw pattern (the method returns before scanning),
otherwise the outcome of the two scan loops. -/
def checkDecision (pt : List ProcEntry) (hidraw : String) : Option (Except Unit Bool) :=
  match matchHidraw hidraw with
  | none => none
  | some _ =>
    match openProcs hidraw pt with
    | .error u => some (.error u)
    | .ok procs => some (steamLoop procs)

/-- Outcome of a full run of InhibitionServer._check including the
attribute writes: skip when the path does not match the pattern, err
when an exception escaped (carrying the writes performed before it),
done with the decision and the performed writes otherwise. -/
inductive CheckRes where
  | skip : CheckRes
  | err : List (String × String) → CheckRes
  | done : Bool → List (String × String) → CheckRes
deriving DecidableEq

/-- InhibitionServer._check: match the pattern, run the two scan loops,
then call Inhibitor.inhibit when the steam flag is set and
Inhibitor.uninhibit otherwise. -/
def runCheck (sys : Sys) (pt : List ProcEntry) (hidraw : String) : CheckRes :=
  match matchHidraw hidraw with
  | none => .skip
  | some id =>
    match openProcs hidraw pt with
    | .error _ => .err []
    | .ok procs =>
      match steamLoop procs with
      | .error _ => .err []
      | .ok steam =>
        let r := Inhibitor.writeNodes sys (if steam then "1\n" else "0\n")
          (Inhibitor.get_nodes sys id)
        if r.2 then .err r.1 else .done steam r.1

/-- A process-table entry that _check can observe holding the device
open: numeric name, readable fd directory, a listed descriptor whose
readlink resolves exactly to the device path. -/
def entryFdMatch (hidraw : String) (e : ProcEntry) : Prop :=
  pyIsNumeric e.pidName = true ∧ e.fdReadable = true ∧
    ∃ fds, e.fds = some fds ∧ ∃ fd ∈ fds, fd.target = some hidraw

/-- An entry that makes _check decide to inhibit: it holds the device
open and its command name, after trimming trailing whitespace, is
steam. -/
def entrySteamHit (hidraw : String) (e : ProcEntry) : Prop :=
  entryFdMatch hidraw e ∧ ∃ c, e.comm = some c ∧ pyRstrip c = "steam"

/-- The inotify event kinds the source subscribes to, as boolean flags
of a mask. -/
structure Mask where
  createEv : Bool
  openEv : Bool
  closeNoWrite : Bool
  closeWrite : Bool
  deleteSelf : Bool
deriving DecidableEq

/-- The mask used for a per-device watch: IN_DELETE_SELF, IN_OPEN,
IN_CLOSE_NOWRITE and IN_CLOSE_WRITE. -/
def hidrawMask : Mask := ⟨false, true, true, true, true⟩

/-- The mask used for the directory watch on /dev: IN_CREATE. -/
def createMask : Mask := ⟨true, false, false, false, false⟩

/-- Which handler a watch dispatches to (the proc_fun argument). -/
inductive ProcFun where
  | nodeAdded : ProcFun
  | hidrawProc : ProcFun
deriving DecidableEq

/-- One entry of the pyinotify watch dictionary: watch descriptor, the
watched path, the event mask and the handler. -/
structure Watch where
  wd : Nat
  path : String
  mask : Mask
  handler : ProcFun
deriving DecidableEq

/-- The pyinotify WatchManager state: the watch entries (the values of
the wd-keyed dictionary, in insertion order) and the next fresh watch
descriptor. -/
structure WatchManager where
  watches : List Watch
  nextWd : Nat
deriving DecidableEq

/-- Modelled from the spec and inotify semantics (pyinotify is an
external library, not part of src/): add_watch on a path that is
already watched reuses the existing watch descriptor and updates the
stored mask and handler in place, so no second entry appears; on a
fresh path it appends a new entry under a fresh descriptor. -/
def addWatch (m : WatchManager) (p : String) (msk : Mask) (hd : ProcFun) : WatchManager :=
  if m.watches.any (fun w => w.path == p) then
    ⟨m.watches.map (fun w => if w.path = p then ⟨w.wd, p, msk, hd⟩ else w), m.nextWd⟩
  else
    ⟨m.watches ++ [⟨m.nextWd, p, msk, hd⟩], m.nextWd + 1⟩

/-- Modelled from the spec and inotify semantics: del_watch removes the
entry stored under the given watch descriptor. -/
def delWatch (m : WatchManager) (wd : Nat) : WatchManager :=
  ⟨m.watches.filter (fun w => !(w.wd == wd)), m.nextWd⟩

/-- Observable actions of the server, recorded as a trace: an
eligibility check with its result, installing a watch, one invocation of
the correlation scan _check, one write of a value to an inhibit node,
removing a watch, and an exception escaping. -/
inductive Act where
  | elig : String → Bool → Act
  | addw : String → Mask → Act
  | scan : String → Act
  | wr : String → String → Act
  | delw : Nat → Act
  | raised : Act
deriving DecidableEq

/-- Trace of one invocation of _check: the scan itself, then the
attribute writes it performed, then a raised marker when an exception
escaped. -/
def checkActs (sys : Sys) (pt : List ProcEntry) (hidraw : String) : List Act :=
  Act.scan hidraw ::
    (match runCheck sys pt hidraw with
     | .skip => []
     | .err ws => ws.map (fun q => Act.wr q.1 q.2) ++ [Act.raised]
     | .done _ ws => ws.map (fun q => Act.wr q.1 q.2))

/-- InhibitionServer.watch: return at once when the path does not match
the hidraw pattern; return after the eligibility check when it fails;
otherwise install the per-device watch and synchronously run _check once.
The result is the new watch-manager state and the trace of actions. -/
def serverWatch (sys : Sys) (pt : List ProcEntry) (m : WatchManager) (hidraw : String) :
    WatchManager × List Act :=
  match matchHidraw hidraw with
  | none => (m, [])
  | some id =>
    if Inhibitor.can_inhibit sys id = false then (m, [Act.elig id false])
    else
      (addWatch m hidraw hidrawMask ProcFun.hidrawProc,
       Act.elig id true :: Act.addw hidraw hidrawMask :: checkActs sys pt hidraw)

/-- InhibitionServer._node_added: after the settling sleep (pure timing,
not represented), it just calls watch on the created pathname. -/
def serverNodeAdded (sys : Sys) (pt : List ProcEntry) (m : WatchManager) (pathname : String) :
    WatchManager × List Act :=
  serverWatch sys pt m pathname

/-- An inotify event as delivered to a per-device handler: its mask, the
watch descriptor it fired on, and the watched path. -/
structure InEvent where
  mask : Mask
  wd : Nat
  path : String
deriving DecidableEq

/-- InhibitionServer._hidraw_process: on a delete-self event remove the
watch under the event descriptor and return; on any other event run
_check on the event path. -/
def serverHidrawProcess (sys : Sys) (pt : List ProcEntry) (m : WatchManager) (ev : InEvent) :
    WatchManager × List Act :=
  if ev.mask.deleteSelf then (delWatch m ev.wd, [Act.delw ev.wd])
  else (m, checkActs sys pt ev.path)

/-- InhibitionServer._stop: walk the watch entries; skip those whose
path does not match the hidraw pattern (the /dev directory watch);
for the rest call Inhibitor.uninhibit.  The call is not guarded in the
source, so a raising write aborts the remaining iterations. -/
def serverStop (sys : Sys) : List Watch → List Act × Bool
  | [] => ([], false)
  | w :: rest =>
    match matchHidraw w.path with
    | none => serverStop sys rest
    | some id =>
      let r := Inhibitor.writeNodes sys "0\n" (Inhibitor.get_nodes sys id)
      if r.2 then (r.1.map (fun q => Act.wr q.1 q.2) ++ [Act.raised], true)
      else
        let t := serverStop sys rest
        (r.1.map (fun q => Act.wr q.1 q.2) ++ t.1, t.2)

/-- InhibitionServer._start: install the IN_CREATE watch on /dev, then
call watch on every existing path of the /dev/hidraw glob. -/
def serverStart (sys : Sys) (pt : List ProcEntry) (devGlob : List String) :
    WatchManager × List Act :=
  devGlob.foldl
    (fun acc p =>
      let r := serverWatch sys pt acc.1 p
      (r.1, acc.2 ++ r.2))
    (addWatch ⟨[], 0⟩ "/dev" createMask ProcFun.nodeAdded, [])

/-! Concrete environments and process tables used by the witness and
counterexample theorems. -/

/-- A device with three mouse-bearing inputs whose middle inhibit node
vanishes at write time. -/
def sysVanish : Sys :=
  ⟨fun i => if i = "0" then ["iA", "iB", "iC"] else [], fun _ => true,
   fun _ => "/sys/bus/hid/drivers/playstation", fun _ => true,
   fun n => !(n == "iB/inhibited")⟩

/-- A playstation device with two nodes of which only the first is
writable. -/
def sysMixed : Sys :=
  ⟨fun i => if i = "0" then ["a", "b"] else [], fun _ => true,
   fun _ => "/sys/bus/hid/drivers/playstation", fun n => n == "a/inhibited",
   fun _ => true⟩

/-- A device whose single input exposes no mouse node. -/
def sysNoMouse : Sys :=
  ⟨fun i => if i = "0" then ["a"] else [], fun _ => false,
   fun _ => "/sys/bus/hid/drivers/playstation", fun _ => true, fun _ => true⟩

/-- An eligible playstation device with one mouse-bearing input and all
writes succeeding. -/
def sysFull : Sys :=
  ⟨fun i => if i = "3" then ["i1"] else [], fun _ => true,
   fun _ => "/sys/bus/hid/drivers/playstation", fun _ => true, fun _ => true⟩

/-- A bare environment with no devices. -/
def sysEmpty : Sys := ⟨fun _ => [], fun _ => false, fun _ => "", fun _ => false, fun _ => true⟩

/-- A process table with one steam process holding hidraw0 open. -/
def ptSteam : List ProcEntry :=
  [⟨"7", true, some [⟨"5", some "/dev/hidraw0"⟩], some "steam\n"⟩]

/-- A process table whose single holder of hidraw0 vanishes before its
comm file is read. -/
def ptVanish : List ProcEntry :=
  [⟨"5", true, some [⟨"3", some "/dev/hidraw0"⟩], none⟩]

/-- A process table with an unreadable fd directory and a descriptor
whose readlink fails: both are skipped candidates. -/
def ptMixed : List ProcEntry :=
  [⟨"3", false, none, none⟩, ⟨"9", true, some [⟨"1", none⟩], none⟩]

/-- The empty watch manager. -/
def wm0 : WatchManager := ⟨[], 0⟩

/-- A registry holding the /dev directory watch and one device watch. -/
def ws0 : List Watch :=
  [⟨0, "/dev", createMask, ProcFun.nodeAdded⟩,
   ⟨1, "/dev/hidraw3", hidrawMask, ProcFun.hidrawProc⟩]

/-- A delete-self event on watch descriptor 1. -/
def evDel : InEvent := ⟨⟨false, false, false, false, true⟩, 1, "/dev/hidraw3"⟩

/-! Helper lemmas about the Inhibitor write loop and node enumeration. -/

theorem writeNodes_eq (sys : Sys) (v : String) (nodes : List String) :
    Inhibitor.writeNodes sys v nodes =
      ((nodes.takeWhile sys.openW).map (fun n => (n, v)), !(nodes.all sys.openW)) := by
  induction nodes with
  | nil => rfl
  | cons n rest ih =>
    cases h : sys.openW n with
    | true => simp [Inhibitor.writeNodes, h, List.takeWhile_cons, ih]
    | false => simp [Inhibitor.writeNodes, h, List.takeWhile_cons]

theorem writeNodes_total (sys : Sys) (v : String) (nodes : List String)
    (h : ∀ n, sys.openW n = true) :
    Inhibitor.writeNodes sys v nodes = (nodes.map (fun n => (n, v)), false) := by
  induction nodes with
  | nil => rfl
  | cons n rest ih => simp [Inhibitor.writeNodes, h n, ih]

theorem get_nodes_mem (sys : Sys) (id : String) (x : String) :
    x ∈ Inhibitor.get_nodes sys id ↔
      ∃ d ∈ sys.inputDevs id, sys.hasMouse d = true ∧ x = d ++ "/inhibited" := by
  simp only [Inhibitor.get_nodes, List.mem_map, List.mem_filter]
  constructor
  · rintro ⟨d, ⟨hd, hm⟩, rfl⟩
    exact ⟨d, hd, hm, rfl⟩
  · rintro ⟨d, hd, hm, rfl⟩
    exact ⟨d, ⟨hd, hm⟩, rfl⟩

/-- C3 counterexample: against the claim, a write to a vanished node is
not swallowed: the toggle raises (abort flag true) and the node after
the vanished one is not written. -/
theorem c3_counterexample :
    (Inhibitor.inhibit sysVanish "0").2 = true ∧
      ("iC/inhibited", "1\n") ∉ (Inhibitor.inhibit sysVanish "0").1 ∧
      (Inhibitor.inhibit sysVanish "0").1 = [("iA/inhibited", "1\n")] := by
  refine ⟨rfl, ?_, rfl⟩
  decide

/-- C3 amended: the write loops of Inhibitor.inhibit and
Inhibitor.uninhibit have no exception handler, so they write the nodes
up to the first node whose open fails and raise there, skipping all
later nodes; only when every open succeeds do they write every node
without raising. -/
theorem c3_theorem (sys : Sys) (id : String) :
    Inhibitor.inhibit sys id =
      (((Inhibitor.get_nodes sys id).takeWhile sys.openW).map (fun n => (n, "1\n")),
        !((Inhibitor.get_nodes sys id).all sys.openW)) ∧
    Inhibitor.uninhibit sys id =
      (((Inhibitor.get_nodes sys id).takeWhile sys.openW).map (fun n => (n, "0\n")),
        !((Inhibitor.get_nodes sys id).all sys.openW)) :=
  ⟨writeNodes_eq sys "1\n" _, writeNodes_eq sys "0\n" _⟩

/-- C4 counterexample: against the claim, a playstation device with at
least one writable inhibit node is rejected by can_inhibit because one
other node is not writable. -/
theorem c4_counterexample :
    Inhibitor.can_inhibit sysMixed "0" = false ∧
      lastComponent (sysMixed.driverLink "0") = "playstation" ∧
      "a/inhibited" ∈ Inhibitor.get_nodes sysMixed "0" ∧
      sysMixed.writable "a/inhibited" = true := by
  refine ⟨rfl, rfl, ?_, rfl⟩
  decide

/-- C4 amended: can_inhibit returns true iff the last component of the
driver symlink is sony or playstation, the inhibit-node list is
nonempty, and every inhibit node is writable. -/
theorem c4_theorem (sys : Sys) (id : String) :
    Inhibitor.can_inhibit sys id = true ↔
      ((lastComponent (sys.driverLink id) = "sony" ∨
          lastComponent (sys.driverLink id) = "playstation") ∧
        Inhibitor.get_nodes sys id ≠ [] ∧
        ∀ n ∈ Inhibitor.get_nodes sys id, sys.writable n = true) := by
  simp only [Inhibitor.can_inhibit]
  by_cases hd : (lastComponent (sys.driverLink id) == "sony" ||
      lastComponent (sys.driverLink id) == "playstation") = true
  · have hd' : lastComponent (sys.driverLink id) = "sony" ∨
        lastComponent (sys.driverLink id) = "playstation" := by
      rcases Bool.or_eq_true_iff.mp hd with h | h
      · exact Or.inl (beq_iff_eq.mp h)
      · exact Or.inr (beq_iff_eq.mp h)
    simp only [hd, Bool.not_true, Bool.false_eq_true, if_false, hd', true_and]
    by_cases hn : Inhibitor.get_nodes sys id = []
    · simp [hn]
    · simp [hn, List.all_eq_true]
  · have hd' : ¬(lastComponent (sys.driverLink id) = "sony" ∨
        lastComponent (sys.driverLink id) = "playstation") := by
      intro hcon
      apply hd
      rcases hcon with h | h
      · exact Bool.or_eq_true_iff.mpr (Or.inl (beq_iff_eq.mpr h))
      · exact Bool.or_eq_true_iff.mpr (Or.inr (beq_iff_eq.mpr h))
    simp [Bool.eq_false_iff.mpr hd, hd']

/-- C10: the inhibit-node list consists exactly of the inhibited files
of the input sub-nodes exposing a mouse node, and a device none of whose
inputs expose a mouse node has no nodes, is never eligible, and its
toggles perform no write. -/
theorem c10_theorem (sys : Sys) (id : String) :
    (∀ x, x ∈ Inhibitor.get_nodes sys id ↔
        ∃ d ∈ sys.inputDevs id, sys.hasMouse d = true ∧ x = d ++ "/inhibited") ∧
    ((∀ d ∈ sys.inputDevs id, sys.hasMouse d = false) →
      Inhibitor.get_nodes sys id = [] ∧ Inhibitor.can_inhibit sys id = false ∧
        Inhibitor.inhibit sys id = ([], false) ∧ Inhibitor.uninhibit sys id = ([], false)) := by
  constructor
  · exact get_nodes_mem sys id
  · intro hnm
    have hnil : Inhibitor.get_nodes sys id = [] := by
      simp only [Inhibitor.get_nodes, List.map_eq_nil_iff, List.filter_eq_nil_iff]
      intro d hd
      simp [hnm d hd]
    refine ⟨hnil, ?_, ?_, ?_⟩
    · simp only [Inhibitor.can_inhibit, hnil]
      split
      · rfl
      · rfl
    · simp [Inhibitor.inhibit, hnil, Inhibitor.writeNodes]
    · simp [Inhibitor.uninhibit, hnil, Inhibitor.writeNodes]

/-- C10 witness: the sysNoMouse device has no inhibit nodes, fails
eligibility and writes nothing. -/
theorem c10_witness :
    Inhibitor.get_nodes sysNoMouse "0" = [] ∧ Inhibitor.can_inhibit sysNoMouse "0" = false ∧
      Inhibitor.inhibit sysNoMouse "0" = ([], false) ∧
      Inhibitor.uninhibit sysNoMouse "0" = ([], false) :=
  (c10_theorem sysNoMouse "0").2 (by decide)

/-! Helper lemmas about the two scan loops of _check. -/

theorem matchHidraw_ne_empty (s : String) (id : String) (h : matchHidraw s = some id) :
    s ≠ "" := by
  intro hs
  subst hs
  have hnone : matchHidraw "" = none := rfl
  rw [hnone] at h
  exact Option.noConfusion h

theorem fdHit_iff (hidraw : String) (hne : hidraw ≠ "") (fd : FdEntry) :
    fdHit hidraw fd = true ↔ fd.target = some hidraw := by
  cases fd with
  | mk nm tgt =>
    cases tgt with
    | none => simp [fdHit]
    | some p =>
      simp only [fdHit]
      by_cases hp : p = ""
      · subst hp
        simp [Ne.symm hne]
      · by_cases heq : p = hidraw
        · subst heq
          simp [hp]
        · simp [hp, heq]

theorem openProcs_mem (hidraw : String) (hne : hidraw ≠ "") (pt : List ProcEntry)
    (procs : List ProcEntry) (h : openProcs hidraw pt = .ok procs) (e : ProcEntry) :
    e ∈ procs ↔ e ∈ pt ∧ entryFdMatch hidraw e := by
  induction pt generalizing procs with
  | nil =>
    simp only [openProcs, Except.ok.injEq] at h
    subst h
    simp
  | cons a rest ih =>
    simp only [openProcs] at h
    by_cases hnum : pyIsNumeric a.pidName = true
    · simp only [hnum, Bool.not_true, Bool.false_eq_true, if_false] at h
      by_cases hrd : a.fdReadable = true
      · simp only [hrd, Bool.not_true, Bool.false_eq_true, if_false] at h
        cases hfds : a.fds with
        | none => rw [hfds] at h; exact absurd h (by simp)
        | some fds =>
          rw [hfds] at h
          cases hop : openProcs hidraw rest with
          | error u => rw [hop] at h; exact absurd h (by simp)
          | ok tail =>
            rw [hop] at h
            simp only [Except.ok.injEq] at h
            subst h
            rw [List.mem_append, ih tail hop]
            constructor
            · rintro (hl | ⟨hr, hm⟩)
              · rcases List.mem_map.mp hl with ⟨fd, hfd, rfl⟩
                have hhit := (List.mem_filter.mp hfd).2
                exact ⟨List.mem_cons_self a rest,
                  hnum, hrd, fds, hfds, fd,
                  (List.mem_filter.mp hfd).1, (fdHit_iff hidraw hne fd).mp hhit⟩
              · exact ⟨List.mem_cons_of_mem a hr, hm⟩
            · rintro ⟨hmem, hm⟩
              rcases List.mem_cons.mp hmem with rfl | hr
              · left
                rcases hm with ⟨_, _, fds', hfds', fd, hfd, htgt⟩
                rw [hfds] at hfds'
                cases Option.some.inj hfds'
                exact List.mem_map.mpr ⟨fd,
                  List.mem_filter.mpr ⟨hfd, (fdHit_iff hidraw hne fd).mpr htgt⟩, rfl⟩
              · right
                exact ⟨hr, hm⟩
      · have hrd' : a.fdReadable = false := Bool.eq_false_iff.mpr hrd
        simp only [hnum, hrd', Bool.not_true, Bool.not_false, Bool.false_eq_true, if_false,
          if_true] at h
        rw [ih procs h]
        constructor
        · rintro ⟨hr, hm⟩
          exact ⟨List.mem_cons_of_mem a hr, hm⟩
        · rintro ⟨hmem, hm⟩
          rcases List.mem_cons.mp hmem with rfl | hr
          · exact absurd hm.2.1 hrd
          · exact ⟨hr, hm⟩
    · have hnum' : pyIsNumeric a.pidName = false := Bool.eq_false_iff.mpr hnum
      simp only [hnum', Bool.not_false, if_true] at h
      rw [ih procs h]
      constructor
      · rintro ⟨hr, hm⟩
        exact ⟨List.mem_cons_of_mem a hr, hm⟩
      · rintro ⟨hmem, hm⟩
        rcases List.mem_cons.mp hmem with rfl | hr
        · exact absurd hm.1 hnum
        · exact ⟨hr, hm⟩

theorem steamLoop_ok_iff (procs : List ProcEntry) (b : Bool) (h : steamLoop procs = .ok b) :
    b = true ↔ ∃ e ∈ procs, ∃ c, e.comm = some c ∧ pyRstrip c = "steam" := by
  induction procs generalizing b with
  | nil =>
    simp only [steamLoop, Except.ok.injEq] at h
    subst h
    simp
  | cons a rest ih =>
    simp only [steamLoop] at h
    cases hc : a.comm with
    | none => rw [hc] at h; exact absurd h (by simp)
    | some c =>
      rw [hc] at h
      by_cases hce : c = ""
      · subst hce
        simp only [if_true, reduceIte] at h
        rw [ih b h]
        constructor
        · rintro ⟨e, he, hx⟩
          exact ⟨e, List.mem_cons_of_mem a he, hx⟩
        · rintro ⟨e, hmem, c', hc', hs⟩
          rcases List.mem_cons.mp hmem with rfl | hr
          · rw [hc] at hc'
            cases Option.some.inj hc'
            exact absurd hs (by decide)
          · exact ⟨e, hr, c', hc', hs⟩
      · simp only [hce, if_false, reduceIte] at h
        by_cases hst : pyRstrip c = "steam"
        · simp only [hst, if_true, reduceIte] at h
          cases hrest : steamLoop rest with
          | error u => rw [hrest] at h; exact absurd h (by simp)
          | ok b' =>
            rw [hrest] at h
            simp only [Except.ok.injEq] at h
            subst h
            simp only [true_iff]
            exact ⟨a, List.mem_cons_self a rest, c, hc, hst⟩
        · simp only [hst, if_false, reduceIte] at h
          rw [ih b h]
          constructor
          · rintro ⟨e, he, hx⟩
            exact ⟨e, List.mem_cons_of_mem a he, hx⟩
          · rintro ⟨e, hmem, c', hc', hs⟩
            rcases List.mem_cons.mp hmem with rfl | hr
            · rw [hc] at hc'
              cases Option.some.inj hc'
              exact absurd hs hst
            · exact ⟨e, hr, c', hc', hs⟩

theorem openProcs_ok (hidraw : String) (pt : List ProcEntry)
    (hfds : ∀ e ∈ pt, pyIsNumeric e.pidName = true → e.fdReadable = true →
      (e.fds).isSome = true) :
    ∃ procs, openProcs hidraw pt = .ok procs := by
  induction pt with
  | nil => exact ⟨[], rfl⟩
  | cons a rest ih =>
    have hrest : ∃ procs, openProcs hidraw rest = .ok procs :=
      ih (fun e he => hfds e (List.mem_cons_of_mem a he))
    rcases hrest with ⟨tail, htail⟩
    by_cases hnum : pyIsNumeric a.pidName = true
    · by_cases hrd : a.fdReadable = true
      · have hsome := hfds a (List.mem_cons_self a rest) hnum hrd
        cases hfd : a.fds with
        | none => rw [hfd] at hsome; exact absurd hsome (by simp)
        | some fds =>
          refine ⟨(fds.filter (fdHit hidraw)).map (fun _ => a) ++ tail, ?_⟩
          simp only [openProcs, hnum, hrd, hfd, htail, Bool.not_true, Bool.false_eq_true,
            if_false]
      · have hrd' : a.fdReadable = false := Bool.eq_false_iff.mpr hrd
        refine ⟨tail, ?_⟩
        simp only [openProcs, hnum, hrd', Bool.not_true, Bool.not_false, Bool.false_eq_true,
          if_false, if_true, htail]
    · have hnum' : pyIsNumeric a.pidName = false := Bool.eq_false_iff.mpr hnum
      refine ⟨tail, ?_⟩
      simp only [openProcs, hnum', Bool.not_false, if_true, htail]

theorem openProcs_unreadable (hidraw : String) (pt : List ProcEntry)
    (h : ∀ e ∈ pt, e.fdReadable = false) :
    openProcs hidraw pt = .ok [] := by
  induction pt with
  | nil => rfl
  | cons a rest ih =>
    have htail := ih (fun e he => h e (List.mem_cons_of_mem a he))
    by_cases hnum : pyIsNumeric a.pidName = true
    · simp only [openProcs, hnum, h a (List.mem_cons_self a rest), Bool.not_true,
        Bool.not_false, Bool.false_eq_true, if_false, if_true, htail]
    · have hnum' : pyIsNumeric a.pidName = false := Bool.eq_false_iff.mpr hnum
      simp only [openProcs, hnum', Bool.not_false, if_true, htail]

theorem steamLoop_ok (procs : List ProcEntry)
    (hc : ∀ e ∈ procs, (e.comm).isSome = true) :
    ∃ b, steamLoop procs = .ok b := by
  induction procs with
  | nil => exact ⟨false, rfl⟩
  | cons a rest ih =>
    rcases ih (fun e he => hc e (List.mem_cons_of_mem a he)) with ⟨b, hb⟩
    have hsome := hc a (List.mem_cons_self a rest)
    cases hcm : a.comm with
    | none => rw [hcm] at hsome; exact absurd hsome (by simp)
    | some c =>
      by_cases hce : c = ""
      · subst hce
        exact ⟨b, by simp only [steamLoop, hcm, if_true, reduceIte, hb]⟩
      · by_cases hst : pyRstrip c = "steam"
        · exact ⟨true, by simp only [steamLoop, hcm, hce, hst, if_false, if_true, reduceIte,
            hb]⟩
        · exact ⟨b, by simp only [steamLoop, hcm, hce, hst, if_false, reduceIte, hb]⟩

/-- C1: whenever _check completes with a decision on a path matching the
hidraw pattern, the decision is inhibit exactly when some observable
process-table entry holds a descriptor resolving to the device path and
has command name steam after trimming trailing whitespace; an empty
process table and a table whose fd directories are all unreadable both
yield the uninhibit decision as a normal ok result. -/
theorem c1_theorem (sys : Sys) (pt : List ProcEntry) (hidraw : String)
    (h : (matchHidraw hidraw).isSome = true) :
    (∀ b ws, runCheck sys pt hidraw = CheckRes.done b ws →
      (b = true ↔ ∃ e ∈ pt, entrySteamHit hidraw e)) ∧
    checkDecision [] hidraw = some (Except.ok false) ∧
    ((∀ e ∈ pt, e.fdReadable = false) → checkDecision pt hidraw = some (Except.ok false)) := by
  rcases Option.isSome_iff_exists.mp h with ⟨id, hid⟩
  have hne := matchHidraw_ne_empty hidraw id hid
  refine ⟨?_, ?_, ?_⟩
  · intro b ws hrun
    simp only [runCheck, hid] at hrun
    split at hrun
    · exact absurd hrun (by simp)
    · rename_i procs hop
      split at hrun
      · exact absurd hrun (by simp)
      · rename_i steam hsl
        set r := Inhibitor.writeNodes sys (if steam = true then "1\n" else "0\n")
          (Inhibitor.get_nodes sys id) with hrdef
        split at hrun
        · exact absurd hrun (by simp)
        · have hb : steam = b := ((CheckRes.done.injEq _ _ _ _).mp hrun).1
          subst hb
          rw [steamLoop_ok_iff procs steam hsl]
          constructor
          · rintro ⟨e, he, hx⟩
            rw [openProcs_mem hidraw hne pt procs hop e] at he
            exact ⟨e, he.1, he.2, hx⟩
          · rintro ⟨e, he, hm, hx⟩
            exact ⟨e, (openProcs_mem hidraw hne pt procs hop e).mpr ⟨he, hm⟩, hx⟩
  · simp only [checkDecision, hid]
    rfl
  · intro hunread
    simp only [checkDecision, hid, openProcs_unreadable hidraw pt hunread]
    rfl

/-- C1 witness: with a steam process holding hidraw0 open the theorem
applies at a concrete table. -/
theorem c1_witness :
    (∀ b ws, runCheck sysEmpty ptSteam "/dev/hidraw0" = CheckRes.done b ws →
      (b = true ↔ ∃ e ∈ ptSteam, entrySteamHit "/dev/hidraw0" e)) ∧
    checkDecision [] "/dev/hidraw0" = some (Except.ok false) ∧
    ((∀ e ∈ ptSteam, e.fdReadable = false) →
      checkDecision ptSteam "/dev/hidraw0" = some (Except.ok false)) :=
  c1_theorem sysEmpty ptSteam "/dev/hidraw0" (by decide)

/-- C2 counterexample: against the claim, a process that vanishes
between the descriptor scan and the read of its command name makes the
whole scan abort with an error instead of being skipped. -/
theorem c2_counterexample :
    checkDecision ptVanish "/dev/hidraw0" = some (Except.error ()) ∧
      ∀ b, checkDecision ptVanish "/dev/hidraw0" ≠ some (Except.ok b) := by
  refine ⟨rfl, ?_⟩
  intro b hb
  rw [show checkDecision ptVanish "/dev/hidraw0" = some (Except.error ()) from rfl] at hb
  exact Except.noConfusion (Option.some.inj hb)

/-- C2 amended: the scan silently skips processes whose fd directory is
not readable and descriptors whose readlink fails, and never aborts for
those; but it does abort when a descriptor-table listing fails after the
readability check or when the command-name read of a collected candidate
fails, so the scan completes normally exactly on tables where those two
reads succeed. -/
theorem c2_theorem (pt : List ProcEntry) (hidraw : String)
    (hm : (matchHidraw hidraw).isSome = true)
    (hfds : ∀ e ∈ pt, pyIsNumeric e.pidName = true → e.fdReadable = true →
      (e.fds).isSome = true)
    (hcomm : ∀ e ∈ pt, entryFdMatch hidraw e → (e.comm).isSome = true) :
    ∃ b, checkDecision pt hidraw = some (Except.ok b) := by
  rcases Option.isSome_iff_exists.mp hm with ⟨id, hid⟩
  have hne := matchHidraw_ne_empty hidraw id hid
  rcases openProcs_ok hidraw pt hfds with ⟨procs, hop⟩
  have hall : ∀ e ∈ procs, (e.comm).isSome = true := by
    intro e he
    rw [openProcs_mem hidraw hne pt procs hop e] at he
    exact hcomm e he.1 he.2
  rcases steamLoop_ok procs hall with ⟨b, hb⟩
  refine ⟨b, ?_⟩
  simp only [checkDecision, hid, hop, hb]

/-- C2 witness: a table with an unreadable fd directory and an
unresolvable descriptor still completes the scan normally. -/
theorem c2_witness : ∃ b, checkDecision ptMixed "/dev/hidraw0" = some (Except.ok b) :=
  c2_theorem ptMixed "/dev/hidraw0" (by decide)
    (by
      intro e he h1 h2
      fin_cases he
      · exact absurd h2 (by decide)
      · decide)
    (by
      intro e he hm
      rcases hm with ⟨h1, h2, fds, hfds, fd, hfd, htgt⟩
      fin_cases he
      · exact absurd h2 (by decide)
      · simp only [ptMixed] at hfds
        cases Option.some.inj hfds
        rcases List.mem_singleton.mp hfd with rfl
        exact Option.noConfusion htgt)

/-! Helper lemmas about the watch manager and the server traces. -/

theorem addWatch_mem (m : WatchManager) (p : String) (msk : Mask) (hd : ProcFun) :
    ∃ w ∈ (addWatch m p msk hd).watches, w.path = p ∧ w.mask = msk ∧ w.handler = hd := by
  simp only [addWatch]
  by_cases hany : m.watches.any (fun w => w.path == p) = true
  · rcases List.any_eq_true.mp hany with ⟨w, hw, hwp⟩
    have hwp' : w.path = p := beq_iff_eq.mp hwp
    simp only [hany, if_true, reduceIte]
    refine ⟨⟨w.wd, p, msk, hd⟩, ?_, rfl, rfl, rfl⟩
    have : (if w.path = p then (⟨w.wd, p, msk, hd⟩ : Watch) else w) = ⟨w.wd, p, msk, hd⟩ := by
      simp [hwp']
    rw [← this]
    exact List.mem_map_of_mem _ hw
  · simp only [Bool.eq_false_iff.mpr hany, Bool.false_eq_true, if_false, reduceIte]
    exact ⟨⟨m.nextWd, p, msk, hd⟩, List.mem_append_right _ (List.mem_singleton.mpr rfl),
      rfl, rfl, rfl⟩

theorem addWatch_idem (m : WatchManager) (p : String) (msk : Mask) (hd : ProcFun) :
    addWatch (addWatch m p msk hd) p msk hd = addWatch m p msk hd := by
  by_cases hany : m.watches.any (fun w => w.path == p) = true
  · rcases List.any_eq_true.mp hany with ⟨w0, hw0, hw0p⟩
    have h1 : addWatch m p msk hd =
        ⟨m.watches.map (fun w => if w.path = p then ⟨w.wd, p, msk, hd⟩ else w), m.nextWd⟩ := by
      simp only [addWatch, hany, if_true, reduceIte]
    have hany2 : (m.watches.map
        (fun w => if w.path = p then ⟨w.wd, p, msk, hd⟩ else w)).any
        (fun w => w.path == p) = true := by
      refine List.any_eq_true.mpr ?_
      refine ⟨if w0.path = p then ⟨w0.wd, p, msk, hd⟩ else w0, List.mem_map_of_mem _ hw0, ?_⟩
      simp [beq_iff_eq.mp hw0p]
    rw [h1]
    simp only [addWatch, hany2, if_true, reduceIte, WatchManager.mk.injEq, and_true]
    rw [List.map_map]
    refine List.map_congr_left ?_
    intro w _
    by_cases hwp : w.path = p
    · simp [Function.comp, hwp]
    · simp [Function.comp, hwp]
  · have h1 : addWatch m p msk hd =
        ⟨m.watches ++ [⟨m.nextWd, p, msk, hd⟩], m.nextWd + 1⟩ := by
      simp only [addWatch, Bool.eq_false_iff.mpr hany, Bool.false_eq_true, if_false, reduceIte]
    have hall : ∀ w ∈ m.watches, w.path ≠ p := by
      intro w hw hwp
      exact hany (List.any_eq_true.mpr ⟨w, hw, beq_iff_eq.mpr hwp⟩)
    have hany2 : (m.watches ++ [(⟨m.nextWd, p, msk, hd⟩ : Watch)]).any
        (fun w => w.path == p) = true := by
      refine List.any_eq_true.mpr ?_
      exact ⟨⟨m.nextWd, p, msk, hd⟩, List.mem_append_right _ (List.mem_singleton.mpr rfl),
        beq_iff_eq.mpr rfl⟩
    rw [h1]
    simp only [addWatch, hany2, if_true, reduceIte, WatchManager.mk.injEq, and_true]
    rw [List.map_append]
    have hmap1 : m.watches.map (fun w => if w.path = p then (⟨w.wd, p, msk, hd⟩ : Watch)
        else w) = m.watches := by
      conv_rhs => rw [← List.map_id m.watches]
      refine List.map_congr_left ?_
      intro w hw
      simp [hall w hw]
    have hmap2 : [(⟨m.nextWd, p, msk, hd⟩ : Watch)].map
        (fun w => if w.path = p then (⟨w.wd, p, msk, hd⟩ : Watch) else w) =
        [⟨m.nextWd, p, msk, hd⟩] := by
      simp
    rw [hmap1, hmap2]

theorem addWatch_countP (m : WatchManager) (p : String) (msk : Mask) (hd : ProcFun) :
    (addWatch m p msk hd).watches.countP (fun w => w.path == p) ≤
      max 1 (m.watches.countP (fun w => w.path == p)) := by
  by_cases hany : m.watches.any (fun w => w.path == p) = true
  · simp only [addWatch, hany, if_true, reduceIte]
    rw [List.countP_map]
    have : m.watches.countP
        ((fun w => w.path == p) ∘ (fun w => if w.path = p then (⟨w.wd, p, msk, hd⟩ : Watch)
          else w)) = m.watches.countP (fun w => w.path == p) := by
      refine List.countP_congr ?_
      intro w _
      by_cases hwp : w.path = p
      · simp [Function.comp, hwp]
      · simp [Function.comp, hwp]
    rw [this]
    exact le_max_right 1 _
  · simp only [addWatch, Bool.eq_false_iff.mpr hany, Bool.false_eq_true, if_false, reduceIte]
    have hzero : m.watches.countP (fun w => w.path == p) = 0 := by
      refine List.countP_eq_zero.mpr ?_
      intro w hw hwp
      exact hany (List.any_eq_true.mpr ⟨w, hw, hwp⟩)
    rw [List.countP_append, hzero]
    simp

theorem checkActs_no_scan_tail (sys : Sys) (pt : List ProcEntry) (hidraw : String) :
    ∃ tl, checkActs sys pt hidraw = Act.scan hidraw :: tl ∧
      tl.countP (fun a => match a with | Act.scan _ => true | _ => false) = 0 ∧
      ∀ a ∈ tl, (∀ p, a ≠ Act.scan p) := by
  have hwr : ∀ (ws : List (String × String)) (a : Act),
      a ∈ ws.map (fun q => Act.wr q.1 q.2) → ∀ p, a ≠ Act.scan p := by
    intro ws a ha p
    rcases List.mem_map.mp ha with ⟨q, _, rfl⟩
    exact fun hcon => Act.noConfusion hcon
  simp only [checkActs]
  cases hrc : runCheck sys pt hidraw with
  | skip =>
    refine ⟨[], rfl, rfl, by intro a ha; exact absurd ha (List.not_mem_nil a)⟩
  | err ws =>
    refine ⟨ws.map (fun q => Act.wr q.1 q.2) ++ [Act.raised], rfl, ?_, ?_⟩
    · rw [List.countP_append]
      have h1 : (ws.map (fun q => Act.wr q.1 q.2)).countP
          (fun a => match a with | Act.scan _ => true | _ => false) = 0 := by
        refine List.countP_eq_zero.mpr ?_
        intro a ha
        rcases List.mem_map.mp ha with ⟨q, _, rfl⟩
        simp
      rw [h1]
      rfl
    · intro a ha
      rcases List.mem_append.mp ha with h | h
      · exact hwr ws a h
      · rcases List.mem_singleton.mp h with rfl
        exact fun p hcon => Act.noConfusion hcon
  | done b ws =>
    refine ⟨ws.map (fun q => Act.wr q.1 q.2), rfl, ?_, hwr ws⟩
    refine List.countP_eq_zero.mpr ?_
    intro a ha
    rcases List.mem_map.mp ha with ⟨q, _, rfl⟩
    simp

/-- C9: registering an already-registered device path is a no-op on the
watch-manager state, and registration never pushes the number of watch
entries for a path above one: after a watch call the count is at most
the maximum of one and the previous count. -/
theorem c9_theorem (sys : Sys) (pt : List ProcEntry) (m : WatchManager) (hidraw : String) :
    (serverWatch sys pt (serverWatch sys pt m hidraw).1 hidraw).1 =
      (serverWatch sys pt m hidraw).1 ∧
    (serverWatch sys pt m hidraw).1.watches.countP (fun w => w.path == hidraw) ≤
      max 1 (m.watches.countP (fun w => w.path == hidraw)) := by
  cases hm : matchHidraw hidraw with
  | none =>
    have hsw : ∀ m' : WatchManager, serverWatch sys pt m' hidraw = (m', []) := by
      intro m'
      simp only [serverWatch, hm]
    constructor
    · simp only [hsw]
    · simp only [hsw]
      exact le_max_right 1 _
  | some id =>
    by_cases he : Inhibitor.can_inhibit sys id = false
    · have hsw : ∀ m' : WatchManager,
          serverWatch sys pt m' hidraw = (m', [Act.elig id false]) := by
        intro m'
        simp only [serverWatch, hm]
        rw [if_pos he]
      constructor
      · simp only [hsw]
      · simp only [hsw]
        exact le_max_right 1 _
    · have hsw : ∀ m' : WatchManager, serverWatch sys pt m' hidraw =
          (addWatch m' hidraw hidrawMask ProcFun.hidrawProc,
            Act.elig id true :: Act.addw hidraw hidrawMask :: checkActs sys pt hidraw) := by
        intro m'
        simp only [serverWatch, hm]
        rw [if_neg he]
      constructor
      · simp only [hsw]
        exact addWatch_idem m hidraw hidrawMask ProcFun.hidrawProc
      · simp only [hsw]
        exact addWatch_countP m hidraw hidrawMask ProcFun.hidrawProc

/-- C8: a path that does not match the hidraw pattern produces no
eligibility check, no registration, no scan and no write: both the watch
operation and the directory-creation handler leave the state unchanged
with an empty action trace. -/
theorem c8_theorem (sys : Sys) (pt : List ProcEntry) (m : WatchManager) (p : String)
    (h : matchHidraw p = none) :
    serverWatch sys pt m p = (m, []) ∧ serverNodeAdded sys pt m p = (m, []) := by
  constructor
  · simp only [serverWatch, h]
  · simp only [serverNodeAdded, serverWatch, h]

/-- C8 witness: a non-hidraw device path is ignored. -/
theorem c8_witness :
    serverWatch sysEmpty [] wm0 "/dev/input/event3" = (wm0, []) ∧
      serverNodeAdded sysEmpty [] wm0 "/dev/input/event3" = (wm0, []) :=
  c8_theorem sysEmpty [] wm0 "/dev/input/event3" (by decide)

/-- C7: a delete-self event removes the watch stored under the event
watch descriptor and produces no attribute write and no correlation
scan. -/
theorem c7_theorem (sys : Sys) (pt : List ProcEntry) (m : WatchManager) (ev : InEvent)
    (h : ev.mask.deleteSelf = true) :
    (serverHidrawProcess sys pt m ev).1.watches =
      m.watches.filter (fun w => !(w.wd == ev.wd)) ∧
    (serverHidrawProcess sys pt m ev).2 = [Act.delw ev.wd] ∧
    ∀ a ∈ (serverHidrawProcess sys pt m ev).2,
      (∀ n v, a ≠ Act.wr n v) ∧ (∀ p, a ≠ Act.scan p) := by
  refine ⟨?_, ?_, ?_⟩
  · simp [serverHidrawProcess, h, delWatch]
  · simp [serverHidrawProcess, h]
  · intro a ha
    simp only [serverHidrawProcess, h, if_true, reduceIte] at ha
    rcases List.mem_singleton.mp ha with rfl
    exact ⟨fun n v hcon => Act.noConfusion hcon, fun p hcon => Act.noConfusion hcon⟩

/-- C7 witness: the delete-self event on descriptor 1 removes that
watch from the registry ws0 and emits only the removal action. -/
theorem c7_witness :
    (serverHidrawProcess sysEmpty [] ⟨ws0, 2⟩ evDel).1.watches =
      ws0.filter (fun w => !(w.wd == evDel.wd)) ∧
    (serverHidrawProcess sysEmpty [] ⟨ws0, 2⟩ evDel).2 = [Act.delw evDel.wd] ∧
    ∀ a ∈ (serverHidrawProcess sysEmpty [] ⟨ws0, 2⟩ evDel).2,
      (∀ n v, a ≠ Act.wr n v) ∧ (∀ p, a ≠ Act.scan p) :=
  c7_theorem sysEmpty [] ⟨ws0, 2⟩ evDel rfl

/-- C6: for an eligible hidraw path, watch leaves an entry for that path
subscribed to open, close-no-write, close-write and delete-self events,
and its trace contains exactly one correlation scan, placed after the
watch installation, with nothing but that scan invocation following the
installation apart from the scan results. -/
theorem c6_theorem (sys : Sys) (pt : List ProcEntry) (m : WatchManager) (hidraw : String)
    (id : String) (h1 : matchHidraw hidraw = some id)
    (h2 : Inhibitor.can_inhibit sys id = true) :
    (∃ w ∈ (serverWatch sys pt m hidraw).1.watches,
      w.path = hidraw ∧ w.mask.openEv = true ∧ w.mask.closeNoWrite = true ∧
        w.mask.closeWrite = true ∧ w.mask.deleteSelf = true) ∧
    (serverWatch sys pt m hidraw).2.countP
      (fun a => match a with | Act.scan _ => true | _ => false) = 1 ∧
    ∃ l₁ l₂, (serverWatch sys pt m hidraw).2 = l₁ ++ Act.scan hidraw :: l₂ ∧
      Act.addw hidraw hidrawMask ∈ l₁ ∧
      l₂.countP (fun a => match a with | Act.scan _ => true | _ => false) = 0 := by
  have hne : ¬(Inhibitor.can_inhibit sys id = false) := by simp [h2]
  rcases checkActs_no_scan_tail sys pt hidraw with ⟨tl, htl, htlc, _⟩
  have hsw : serverWatch sys pt m hidraw =
      (addWatch m hidraw hidrawMask ProcFun.hidrawProc,
        Act.elig id true :: Act.addw hidraw hidrawMask :: checkActs sys pt hidraw) := by
    simp only [serverWatch, h1]
    rw [if_neg hne]
  refine ⟨?_, ?_, ?_⟩
  · rw [hsw]
    rcases addWatch_mem m hidraw hidrawMask ProcFun.hidrawProc with ⟨w, hw, hp, hmsk, _⟩
    refine ⟨w, hw, hp, ?_, ?_, ?_, ?_⟩ <;> rw [hmsk] <;> rfl
  · rw [hsw, htl]
    show (Act.elig id true :: Act.addw hidraw hidrawMask ::
      Act.scan hidraw :: tl).countP
        (fun a => match a with | Act.scan _ => true | _ => false) = 1
    rw [List.countP_cons, List.countP_cons, List.countP_cons, htlc]
    rfl
  · refine ⟨[Act.elig id true, Act.addw hidraw hidrawMask], tl, ?_, ?_, htlc⟩
    · rw [hsw, htl]
      rfl
    · simp

/-- C6 witness: the eligible device hidraw3 in an environment with no
holder gets watched and scanned once. -/
theorem c6_witness :
    (∃ w ∈ (serverWatch sysFull [] wm0 "/dev/hidraw3").1.watches,
      w.path = "/dev/hidraw3" ∧ w.mask.openEv = true ∧ w.mask.closeNoWrite = true ∧
        w.mask.closeWrite = true ∧ w.mask.deleteSelf = true) ∧
    (serverWatch sysFull [] wm0 "/dev/hidraw3").2.countP
      (fun a => match a with | Act.scan _ => true | _ => false) = 1 ∧
    ∃ l₁ l₂, (serverWatch sysFull [] wm0 "/dev/hidraw3").2 =
        l₁ ++ Act.scan "/dev/hidraw3" :: l₂ ∧
      Act.addw "/dev/hidraw3" hidrawMask ∈ l₁ ∧
      l₂.countP (fun a => match a with | Act.scan _ => true | _ => false) = 0 :=
  c6_theorem sysFull [] wm0 "/dev/hidraw3" "3" (by decide) (by decide)

/-- C5: when the node writes succeed, shutdown walks the registry and
writes the uninhibit value to every node of every registered path that
matches the hidraw pattern, with no correlation scan and no inhibit
write anywhere in the trace, and no exception. -/
theorem c5_theorem (sys : Sys) (ws : List Watch) (h : ∀ n, sys.openW n = true) :
    (serverStop sys ws).2 = false ∧
    (∀ w ∈ ws, ∀ id, matchHidraw w.path = some id →
      ∀ n ∈ Inhibitor.get_nodes sys id, Act.wr n "0\n" ∈ (serverStop sys ws).1) ∧
    ∀ a ∈ (serverStop sys ws).1,
      (∀ p, a ≠ Act.scan p) ∧ ∀ n v, a = Act.wr n v → v = "0\n" := by
  induction ws with
  | nil =>
    refine ⟨rfl, ?_, ?_⟩
    · intro w hw
      exact absurd hw (List.not_mem_nil w)
    · intro a ha
      exact absurd ha (List.not_mem_nil a)
  | cons w rest ih =>
    rcases ih with ⟨ih1, ih2, ih3⟩
    cases hm : matchHidraw w.path with
    | none =>
      have hs : serverStop sys (w :: rest) = serverStop sys rest := by
        simp only [serverStop, hm]
      rw [hs]
      refine ⟨ih1, ?_, ih3⟩
      intro w' hw' id hid n hn
      rcases List.mem_cons.mp hw' with rfl | hr
      · rw [hm] at hid
        exact Option.noConfusion hid
      · exact ih2 w' hr id hid n hn
    | some id =>
      have hw : Inhibitor.writeNodes sys "0\n" (Inhibitor.get_nodes sys id) =
          ((Inhibitor.get_nodes sys id).map (fun n => (n, "0\n")), false) :=
        writeNodes_total sys "0\n" (Inhibitor.get_nodes sys id) h
      have hs : serverStop sys (w :: rest) =
          (((Inhibitor.get_nodes sys id).map (fun n => (n, "0\n"))).map
              (fun q => Act.wr q.1 q.2) ++ (serverStop sys rest).1,
            (serverStop sys rest).2) := by
        simp only [serverStop, hm, hw, Bool.false_eq_true, if_false, reduceIte]
      rw [hs]
      refine ⟨ih1, ?_, ?_⟩
      · intro w' hw' id' hid' n hn
        rcases List.mem_cons.mp hw' with rfl | hr
        · rw [hm] at hid'
          cases Option.some.inj hid'
          refine List.mem_append_left _ ?_
          exact List.mem_map.mpr ⟨(n, "0\n"), List.mem_map.mpr ⟨n, hn, rfl⟩, rfl⟩
        · exact List.mem_append_right _ (ih2 w' hr id' hid' n hn)
      · intro a ha
        rcases List.mem_append.mp ha with hl | hr
        · rcases List.mem_map.mp hl with ⟨q, hq, rfl⟩
          rcases List.mem_map.mp hq with ⟨n, _, rfl⟩
          refine ⟨fun p hcon => Act.noConfusion hcon, ?_⟩
          intro n' v hv
          cases hv
          rfl
        · exact ih3 a hr

/-- C5 witness: shutting down with the registry ws0 uninhibits the node
of hidraw3 without scanning. -/
theorem c5_witness :
    (serverStop sysFull ws0).2 = false ∧
    (∀ w ∈ ws0, ∀ id, matchHidraw w.path = some id →
      ∀ n ∈ Inhibitor.get_nodes sysFull id, Act.wr n "0\n" ∈ (serverStop sysFull ws0).1) ∧
    ∀ a ∈ (serverStop sysFull ws0).1,
      (∀ p, a ≠ Act.scan p) ∧ ∀ n v, a = Act.wr n v → v = "0\n" :=
  c5_theorem sysFull ws0 (fun _ => rfl)

end DsInhibit
